import Mathlib

/-! Verification development for the reconciliation and batching engine of the
seller-apis repository (src/seller.py and src/market.py), shallowly embedded
in Lean.  Spreadsheet rows, offer-id lists and update records are modelled as
Lean structures and lists; Python exceptions are modelled by Option/Except
results; the in-place mutation of the offer-id list performed by
create_stocks is modelled by returning the final state of that list. -/

/-- One row of the ostatki spreadsheet as consumed by the reconciler: the
fields named Kod (code), Kolichestvo (quantity token) and Tsena (price text)
in the source.  The source applies str() to the code before every use, so the
code is modelled as a string; the quantity cell is likewise modelled by the
string the source compares and parses. -/
structure Watch where
  code : String
  qty : String
  price : String
deriving Repr, DecidableEq

/-- Numeric value of a run of decimal-digit characters, most significant
first. -/
def digitsVal (ds : List Char) : Nat :=
  ds.foldl (fun a c => 10 * a + (c.toNat - 48)) 0

/-- Parse of a digit run as Python int() performs it after stripping and sign
handling: the run must be nonempty and all decimal digits. -/
def pyDigits (ds : List Char) : Option Nat :=
  if ds.isEmpty then none
  else if ds.all Char.isDigit then some (digitsVal ds) else none

/-- The leading- and trailing-whitespace stripping Python int() applies to a
string argument. -/
def pyStrip (l : List Char) : List Char :=
  ((l.dropWhile Char.isWhitespace).reverse.dropWhile Char.isWhitespace).reverse

/-- Sign handling and digit parsing of Python int() on a stripped character
list. -/
def pyIntAux : List Char → Option Int
  | [] => none
  | c :: cs =>
    if c = '+' then (pyDigits cs).map (fun n => (n : Int))
    else if c = '-' then (pyDigits cs).map (fun n => -(n : Int))
    else (pyDigits (c :: cs)).map (fun n => (n : Int))

/-- Python int() applied to a string: optional surrounding whitespace, an
optional sign, then decimal digits; none models the ValueError raised on any
other input.  (Digit-group underscores, accepted by Python but absent from
quantity tokens, are not modelled.) -/
def pyInt (s : String) : Option Int :=
  pyIntAux (pyStrip s.toList)

/-- The quantity-normalization branch inlined in seller.create_stocks
(src/seller.py lines 165-171) and market.create_stocks (src/market.py lines
146-152): a token equal to ">10" yields 100, a token equal to "1" yields 0,
and any other token is handed to int(); none models the ValueError a
non-numeric token raises. -/
def normalize_count (qty : String) : Option Int :=
  if qty = ">10" then some 100
  else if qty = "1" then some 0
  else pyInt qty

/-- Python str.split on the separator character, modelled on character
lists: maximal runs between occurrences of the dot, with empty runs kept, so
the head of the result is the part before the first dot. -/
def pySplitDot : List Char → List (List Char)
  | [] => [[]]
  | c :: cs =>
    if c = '.' then [] :: pySplitDot cs
    else
      match pySplitDot cs with
      | [] => [[c]]
      | p :: ps => (c :: p) :: ps

/-- seller.price_conversion (src/seller.py lines 203-215): keep the part of
the price text before the first dot and delete every character outside the
class 0-9 from it. -/
def price_conversion (price : String) : String :=
  String.mk (((pySplitDot price.toList).headD []).filter Char.isDigit)

/-- Restatement of the price-normalization algorithm in the words of the
specification: take the substring before the first decimal-point separator
and strip every non-digit character from it.  Used to compare the source
definition against the specified algorithm. -/
def price_conversion_spec (price : String) : String :=
  String.mk ((price.toList.takeWhile (· != '.')).filter Char.isDigit)

/-- seller.divide (src/seller.py lines 218-245): the slices lst[i : i + n]
for i = 0, n, 2n, ...; the slice starting at i is take n of drop i, and the
generator is modelled by the list of its yields.  A zero step makes range()
raise ValueError, modelled as none. -/
def divide {α : Type _} : List α → Nat → Option (List (List α))
  | _, 0 => none
  | [], _ + 1 => some []
  | a :: as, n + 1 =>
    (divide ((a :: as).drop (n + 1)) (n + 1)).map
      (fun cs => (a :: as).take (n + 1) :: cs)
termination_by l _ => l.length
decreasing_by simp only [List.length_drop, List.length_cons]; omega

namespace Seller

/-- One element of the stocks list built by seller.create_stocks: the
dictionary with keys offer_id and stock (src/seller.py line 172). -/
structure StockRecord where
  offer_id : String
  stock : Int
deriving Repr, DecidableEq

/-- The first loop of seller.create_stocks (src/seller.py lines 163-173)
with the offer_ids list threaded explicitly: a watch whose code is in the
current list emits a record and removes the first occurrence of that code
from the list (list.remove); a quantity token that int() rejects raises,
modelled as none.  Returns the emitted records and the final state of the
offer_ids list. -/
def stocksLoop : List Watch → List String → Option (List StockRecord × List String)
  | [], offer_ids => some ([], offer_ids)
  | w :: ws, offer_ids =>
    if w.code ∈ offer_ids then
      match normalize_count w.qty with
      | none => none
      | some st =>
        match stocksLoop ws (offer_ids.erase w.code) with
        | none => none
        | some (recs, rem) => some (⟨w.code, st⟩ :: recs, rem)
    else stocksLoop ws offer_ids

/-- seller.create_stocks (src/seller.py lines 152-176): the matching loop
followed by a zero-stock record for every offer id left in the list.  The
source removes matched codes from the very list object the caller passed in,
so the second component — the list as the loop leaves it — is also the state
of the caller's list after the call returns. -/
def create_stocks (watch_remnants : List Watch) (offer_ids : List String) :
    Option (List StockRecord × List String) :=
  match stocksLoop watch_remnants offer_ids with
  | none => none
  | some (matched, rem) =>
    some (matched ++ rem.map (fun oid => ⟨oid, 0⟩), rem)

/-- One element of the prices list built by seller.create_prices
(src/seller.py lines 192-198). -/
structure PriceRecord where
  auto_action_enabled : String
  currency_code : String
  offer_id : String
  old_price : String
  price : String
deriving Repr, DecidableEq

/-- seller.create_prices (src/seller.py lines 179-200): one price record per
watch whose code is in the offer-id list; the list is not modified here. -/
def create_prices : List Watch → List String → List PriceRecord
  | [], _ => []
  | w :: ws, offer_ids =>
    if w.code ∈ offer_ids then
      ⟨"UNKNOWN", "RUB", w.code, "0", price_conversion w.price⟩
        :: create_prices ws offer_ids
    else create_prices ws offer_ids

/-- One item of an Ozon product-list response page (see the docstring of
seller.get_product_list). -/
structure Product where
  product_id : Nat
  offer_id : String
deriving Repr, DecidableEq

/-- One response of seller.get_product_list: its items, total and last_id
fields. -/
structure Page where
  items : List Product
  total : Nat
  last_id : String
deriving Repr, DecidableEq

/-- The while-loop of seller.get_offer_ids (src/seller.py lines 68-76) run
against a trace of backend responses, one per successive get_product_list
call; an error entry models a raised request exception, which propagates.
Each iteration extends the accumulator with the page items and stops when the
page total equals the accumulated length.  Returns none when the trace is
exhausted with the stop condition never holding — the loop would keep
requesting. -/
def offerLoop : List (Except String Page) → List Product →
    Option (Except String (List Product))
  | [], _ => none
  | .error e :: _, _ => some (.error e)
  | .ok p :: rest, acc =>
    let acc2 := acc ++ p.items
    if p.total = acc2.length then some (.ok acc2)
    else offerLoop rest acc2

/-- seller.get_offer_ids (src/seller.py lines 58-80): run the pagination
loop from an empty accumulator, then project offer_id from every accumulated
product. -/
def get_offer_ids (trace : List (Except String Page)) :
    Option (Except String (List String)) :=
  match offerLoop trace [] with
  | none => none
  | some (.error e) => some (.error e)
  | some (.ok prods) => some (.ok (prods.map Product.offer_id))

/-- The Ozon stop condition fails throughout these pages: processing them
from an accumulator of the given length never makes the page total equal the
accumulated length, so the loop keeps going. -/
def noStop : Nat → List Page → Prop
  | _, [] => True
  | acc, p :: ps =>
    p.total ≠ acc + p.items.length ∧ noStop (acc + p.items.length) ps

end Seller

namespace Market

/-- One offerMappingEntries element of a Yandex Market response: only the
shopSku field nested under offer is consumed (src/market.py line 123). -/
structure Entry where
  shopSku : String
deriving Repr, DecidableEq

/-- One response of market.get_product_list: its offerMappingEntries list
and the nextPageToken nested under paging.  Python tests the token for
falsiness, so an absent or null token is modelled by the empty string. -/
structure Page where
  offerMappingEntries : List Entry
  nextPageToken : String
deriving Repr, DecidableEq

/-- The while-loop of market.get_offer_ids (src/market.py lines 113-120) run
against a trace of backend responses, one per successive get_product_list
call; an error entry models a raised request exception, which propagates.
Each iteration extends the accumulator with the page entries and stops when
the page carries an empty continuation token.  Returns none when the trace
is exhausted with a nonempty token still pending. -/
def offerLoop : List (Except String Page) → List Entry →
    Option (Except String (List Entry))
  | [], _ => none
  | .error e :: _, _ => some (.error e)
  | .ok p :: rest, acc =>
    let acc2 := acc ++ p.offerMappingEntries
    if p.nextPageToken = "" then some (.ok acc2)
    else offerLoop rest acc2

/-- market.get_offer_ids (src/market.py lines 102-124): run the pagination
loop from an empty accumulator, then project shopSku from every accumulated
entry. -/
def get_offer_ids (trace : List (Except String Page)) :
    Option (Except String (List String)) :=
  match offerLoop trace [] with
  | none => none
  | some (.error e) => some (.error e)
  | some (.ok entries) => some (.ok (entries.map Entry.shopSku))

/-- The Yandex Market stop condition fails throughout these pages: every one
of them carries a nonempty continuation token. -/
def noStopTok (ps : List Page) : Prop := ∀ p ∈ ps, p.nextPageToken ≠ ""

/-- One sku entry built by market.create_stocks (src/market.py lines
153-165); the singleton items list of the source dictionary is flattened
into the count, itemType and updatedAt fields (type is the constant "FIT",
updatedAt the timestamp taken once per call). -/
structure StockRecord where
  sku : String
  warehouseId : String
  count : Int
  itemType : String
  updatedAt : String
deriving Repr, DecidableEq

/-- The matching loop of market.create_stocks (src/market.py lines 144-166)
with the offer_ids list threaded explicitly; identical control flow to the
Ozon variant, emitting the Yandex record shape.  The date argument models
the timestamp computed once at line 143. -/
def stocksLoop (warehouse_id date : String) :
    List Watch → List String → Option (List StockRecord × List String)
  | [], offer_ids => some ([], offer_ids)
  | w :: ws, offer_ids =>
    if w.code ∈ offer_ids then
      match normalize_count w.qty with
      | none => none
      | some st =>
        match stocksLoop warehouse_id date ws (offer_ids.erase w.code) with
        | none => none
        | some (recs, rem) =>
          some (⟨w.code, warehouse_id, st, "FIT", date⟩ :: recs, rem)
    else stocksLoop warehouse_id date ws offer_ids

/-- market.create_stocks (src/market.py lines 127-182): the matching loop
followed by a zero-count record for every offer id left in the list.  As in
the Ozon variant the source removes matched codes from the caller's own
list, so the second component is the state of that list after the call. -/
def create_stocks (watch_remnants : List Watch) (offer_ids : List String)
    (warehouse_id date : String) :
    Option (List StockRecord × List String) :=
  match stocksLoop warehouse_id date watch_remnants offer_ids with
  | none => none
  | some (matched, rem) =>
    some (matched ++ rem.map (fun oid => ⟨oid, warehouse_id, 0, "FIT", date⟩), rem)

/-- One price entry built by market.create_prices (src/market.py lines
201-207); the nested price object is flattened into the value and currencyId
fields. -/
structure PriceRecord where
  id : String
  value : Int
  currencyId : String
deriving Repr, DecidableEq

/-- market.create_prices (src/market.py lines 185-209): one price record per
watch whose code is in the offer-id list, its value the result of int()
applied to the converted price text; int() raises on an empty digit string,
modelled as none. -/
def create_prices : List Watch → List String → Option (List PriceRecord)
  | [], _ => some []
  | w :: ws, offer_ids =>
    if w.code ∈ offer_ids then
      match pyInt (price_conversion w.price) with
      | none => none
      | some v =>
        match create_prices ws offer_ids with
        | none => none
        | some ps => some (⟨w.code, v, "RUR"⟩ :: ps)
    else create_prices ws offer_ids

/-- Observable outcome of market.main (src/market.py lines 259-291):
whether control reached the FBS section (lines 270-276) and the DBS section
(lines 279-285), and which exception the except clauses caught and printed
(none when the body completed). -/
structure MainRun where
  fbsExecuted : Bool
  dbsExecuted : Bool
  reported : Option String
deriving Repr, DecidableEq

/-- Embedding of the try/except control flow of market.main: both campaign
pipelines sit inside one try block, abstracted here by their outcomes, so an
exception raised in the FBS section jumps straight to the except clause and
the DBS section is never entered. -/
def mainRun (fbsResult dbsResult : Except String Unit) : MainRun :=
  match fbsResult with
  | .error e => ⟨true, false, some e⟩
  | .ok _ =>
    match dbsResult with
    | .error e => ⟨true, true, some e⟩
    | .ok _ => ⟨true, true, none⟩

end Market

namespace Seller

/-- The offer ids carried by the records the matching loop emits, together
with the ids left in the list, are a permutation of the original list. -/
theorem stocksLoop_perm (ws : List Watch) :
    ∀ (R : List String) (recs : List StockRecord) (rem : List String),
      stocksLoop ws R = some (recs, rem) →
      (recs.map StockRecord.offer_id ++ rem).Perm R := by
  induction ws with
  | nil =>
    intro R recs rem h
    simp only [stocksLoop, Option.some.injEq, Prod.mk.injEq] at h
    obtain ⟨h1, h2⟩ := h
    subst h1; subst h2
    simp
  | cons w ws ih =>
    intro R recs rem h
    simp only [stocksLoop] at h
    split at h
    · rename_i hmem
      cases hn : normalize_count w.qty with
      | none => rw [hn] at h; exact absurd h (by simp)
      | some st =>
        rw [hn] at h
        cases hrec : stocksLoop ws (R.erase w.code) with
        | none => rw [hrec] at h; exact absurd h (by simp)
        | some pr =>
          obtain ⟨recs', rem'⟩ := pr
          rw [hrec] at h
          simp only [Option.some.injEq, Prod.mk.injEq] at h
          obtain ⟨h1, h2⟩ := h
          subst h1; subst h2
          have ihp := ih (R.erase w.code) recs' rem' hrec
          simp only [List.map_cons, List.cons_append]
          exact (ihp.cons w.code).trans (List.perm_cons_erase hmem).symm
    · rename_i hmem
      exact ih R recs rem h

/-- The ids the matching loop leaves in the list all come from the original
list. -/
theorem stocksLoop_rem_subset (ws : List Watch) :
    ∀ (R : List String) (recs : List StockRecord) (rem : List String),
      stocksLoop ws R = some (recs, rem) → rem ⊆ R := by
  induction ws with
  | nil =>
    intro R recs rem h
    simp only [stocksLoop, Option.some.injEq, Prod.mk.injEq] at h
    obtain ⟨-, h2⟩ := h
    subst h2
    exact fun x hx => hx
  | cons w ws ih =>
    intro R recs rem h
    simp only [stocksLoop] at h
    split at h
    · cases hn : normalize_count w.qty with
      | none => rw [hn] at h; exact absurd h (by simp)
      | some st =>
        rw [hn] at h
        cases hrec : stocksLoop ws (R.erase w.code) with
        | none => rw [hrec] at h; exact absurd h (by simp)
        | some pr =>
          obtain ⟨recs', rem'⟩ := pr
          rw [hrec] at h
          simp only [Option.some.injEq, Prod.mk.injEq] at h
          obtain ⟨-, h2⟩ := h
          subst h2
          exact (ih (R.erase w.code) recs' rem' hrec).trans
            (List.erase_subset _ _)
    · exact ih R recs rem h

/-- When the original list has no duplicate ids, no inventory code is left in
the list after the matching loop: matched codes were erased and unmatched
codes were never there. -/
theorem stocksLoop_code_not_mem_rem (ws : List Watch) :
    ∀ (R : List String) (recs : List StockRecord) (rem : List String),
      R.Nodup → stocksLoop ws R = some (recs, rem) →
      ∀ w ∈ ws, w.code ∉ rem := by
  induction ws with
  | nil => intro R recs rem _ _ w hw; exact absurd hw (List.not_mem_nil w)
  | cons w' ws ih =>
    intro R recs rem hR h
    simp only [stocksLoop] at h
    split at h
    · rename_i hmem
      cases hn : normalize_count w'.qty with
      | none => rw [hn] at h; exact absurd h (by simp)
      | some st =>
        rw [hn] at h
        cases hrec : stocksLoop ws (R.erase w'.code) with
        | none => rw [hrec] at h; exact absurd h (by simp)
        | some pr =>
          obtain ⟨recs', rem'⟩ := pr
          rw [hrec] at h
          simp only [Option.some.injEq, Prod.mk.injEq] at h
          obtain ⟨-, h2⟩ := h
          subst h2
          intro w hw
          rcases List.mem_cons.mp hw with hw | hw
          · subst hw
            intro hcon
            exact hR.not_mem_erase
              (stocksLoop_rem_subset ws _ recs' rem' hrec hcon)
          · exact ih (R.erase w'.code) recs' rem' (hR.erase _) hrec w hw
    · rename_i hmem
      intro w hw
      rcases List.mem_cons.mp hw with hw | hw
      · subst hw
        intro hcon
        exact hmem (stocksLoop_rem_subset ws R recs rem h hcon)
      · exact ih R recs rem hR h w hw

/-- When the original list has no duplicate ids, the matching loop leaves
exactly the ids with no matching inventory code, in their original order. -/
theorem stocksLoop_rem_eq_filter (ws : List Watch) :
    ∀ (R : List String) (recs : List StockRecord) (rem : List String),
      R.Nodup → stocksLoop ws R = some (recs, rem) →
      rem = R.filter (fun r => decide (r ∉ ws.map Watch.code)) := by
  induction ws with
  | nil =>
    intro R recs rem _ h
    simp only [stocksLoop, Option.some.injEq, Prod.mk.injEq] at h
    obtain ⟨-, h2⟩ := h
    subst h2
    simp
  | cons w ws ih =>
    intro R recs rem hR h
    simp only [stocksLoop] at h
    split at h
    · rename_i hmem
      cases hn : normalize_count w.qty with
      | none => rw [hn] at h; exact absurd h (by simp)
      | some st =>
        rw [hn] at h
        cases hrec : stocksLoop ws (R.erase w.code) with
        | none => rw [hrec] at h; exact absurd h (by simp)
        | some pr =>
          obtain ⟨recs', rem'⟩ := pr
          rw [hrec] at h
          simp only [Option.some.injEq, Prod.mk.injEq] at h
          obtain ⟨-, h2⟩ := h
          subst h2
          rw [ih (R.erase w.code) recs' rem' (hR.erase _) hrec,
            hR.erase_eq_filter w.code, List.filter_filter]
          refine List.filter_congr ?_
          intro a _
          by_cases hac : a = w.code <;> simp [hac]
    · rename_i hmem
      rw [ih R recs rem hR h]
      refine List.filter_congr ?_
      intro a ha
      have hne : a ≠ w.code := fun hcon => hmem (hcon ▸ ha)
      simp [hne]

/-- When the inventory codes are pairwise distinct, every watch whose code is
in the list is matched: its quantity token normalizes and the corresponding
record is emitted. -/
theorem stocksLoop_matched (ws : List Watch) :
    ∀ (R : List String) (recs : List StockRecord) (rem : List String),
      (ws.map Watch.code).Nodup → stocksLoop ws R = some (recs, rem) →
      ∀ w ∈ ws, w.code ∈ R →
        ∃ v, normalize_count w.qty = some v ∧ StockRecord.mk w.code v ∈ recs := by
  induction ws with
  | nil => intro R recs rem _ _ w hw; exact absurd hw (List.not_mem_nil w)
  | cons w' ws ih =>
    intro R recs rem hI h
    simp only [List.map_cons, List.nodup_cons] at hI
    obtain ⟨hI1, hI2⟩ := hI
    simp only [stocksLoop] at h
    split at h
    · rename_i hmem
      cases hn : normalize_count w'.qty with
      | none => rw [hn] at h; exact absurd h (by simp)
      | some st =>
        rw [hn] at h
        cases hrec : stocksLoop ws (R.erase w'.code) with
        | none => rw [hrec] at h; exact absurd h (by simp)
        | some pr =>
          obtain ⟨recs', rem'⟩ := pr
          rw [hrec] at h
          simp only [Option.some.injEq, Prod.mk.injEq] at h
          obtain ⟨h1, -⟩ := h
          subst h1
          intro w hw hwR
          rcases List.mem_cons.mp hw with hw | hw
          · subst hw
            exact ⟨st, hn, List.mem_cons_self _ _⟩
          · have hne : w.code ≠ w'.code := fun hcon =>
              hI1 (hcon ▸ List.mem_map_of_mem Watch.code hw)
            have hwR' : w.code ∈ R.erase w'.code :=
              (List.mem_erase_of_ne hne).mpr hwR
            obtain ⟨v, hv, hvmem⟩ :=
              ih (R.erase w'.code) recs' rem' hI2 hrec w hw hwR'
            exact ⟨v, hv, List.mem_cons_of_mem _ hvmem⟩
    · rename_i hmem
      intro w hw hwR
      rcases List.mem_cons.mp hw with hw | hw
      · subst hw; exact absurd hwR hmem
      · exact ih R recs rem hI2 h w hw hwR

/-- Every id of the original list that matches no inventory code survives
the matching loop. -/
theorem stocksLoop_unmatched (ws : List Watch) :
    ∀ (R : List String) (recs : List StockRecord) (rem : List String),
      stocksLoop ws R = some (recs, rem) →
      ∀ r ∈ R, r ∉ ws.map Watch.code → r ∈ rem := by
  induction ws with
  | nil =>
    intro R recs rem h r hr _
    simp only [stocksLoop, Option.some.injEq, Prod.mk.injEq] at h
    obtain ⟨-, h2⟩ := h
    subst h2
    exact hr
  | cons w ws ih =>
    intro R recs rem h r hr hrcode
    simp only [List.map_cons, List.mem_cons, not_or] at hrcode
    obtain ⟨hrne, hrcode⟩ := hrcode
    simp only [stocksLoop] at h
    split at h
    · cases hn : normalize_count w.qty with
      | none => rw [hn] at h; exact absurd h (by simp)
      | some st =>
        rw [hn] at h
        cases hrec : stocksLoop ws (R.erase w.code) with
        | none => rw [hrec] at h; exact absurd h (by simp)
        | some pr =>
          obtain ⟨recs', rem'⟩ := pr
          rw [hrec] at h
          simp only [Option.some.injEq, Prod.mk.injEq] at h
          obtain ⟨-, h2⟩ := h
          subst h2
          exact ih (R.erase w.code) recs' rem' hrec r
            ((List.mem_erase_of_ne hrne).mpr hr) hrcode
    · exact ih R recs rem h r hr hrcode

/-- When the inventory codes are pairwise distinct, a matched watch whose
quantity token fails to normalize makes the whole loop raise. -/
theorem stocksLoop_error (ws : List Watch) :
    ∀ R : List String, (ws.map Watch.code).Nodup →
      (∃ w ∈ ws, w.code ∈ R ∧ normalize_count w.qty = none) →
      stocksLoop ws R = none := by
  induction ws with
  | nil =>
    intro R _ hex
    obtain ⟨w, hw, -⟩ := hex
    exact absurd hw (List.not_mem_nil w)
  | cons w' ws ih =>
    intro R hI hex
    obtain ⟨w, hw, hwR, hwn⟩ := hex
    simp only [List.map_cons, List.nodup_cons] at hI
    obtain ⟨hI1, hI2⟩ := hI
    rcases List.mem_cons.mp hw with hww | hww
    · subst hww
      simp only [stocksLoop, if_pos hwR, hwn]
    · simp only [stocksLoop]
      split
      · rename_i hmem
        cases hn : normalize_count w'.qty with
        | none => rfl
        | some st =>
          have hne : w.code ≠ w'.code := fun hcon =>
            hI1 (hcon ▸ List.mem_map_of_mem Watch.code hww)
          rw [ih (R.erase w'.code) hI2
            ⟨w, hww, (List.mem_erase_of_ne hne).mpr hwR, hwn⟩]
      · exact ih R hI2 ⟨w, hww, hwR, hwn⟩

/-- Every record the matching loop emits carries the code and the normalized
quantity of some inventory watch, and that code is an id of the list the
loop was started on (a matched code was a member of the current, hence of
the original, list). -/
theorem stocksLoop_origin (ws : List Watch) :
    ∀ (R : List String) (recs : List StockRecord) (rem : List String),
      stocksLoop ws R = some (recs, rem) →
      ∀ rec ∈ recs, ∃ w ∈ ws,
        rec.offer_id = w.code ∧ normalize_count w.qty = some rec.stock ∧
          rec.offer_id ∈ R := by
  induction ws with
  | nil =>
    intro R recs rem h rec hrec
    simp only [stocksLoop, Option.some.injEq, Prod.mk.injEq] at h
    obtain ⟨h1, -⟩ := h
    subst h1
    exact absurd hrec (List.not_mem_nil rec)
  | cons w ws ih =>
    intro R recs rem h rec hrecmem
    simp only [stocksLoop] at h
    split at h
    · rename_i hmem
      cases hn : normalize_count w.qty with
      | none => rw [hn] at h; exact absurd h (by simp)
      | some st =>
        rw [hn] at h
        cases hrec : stocksLoop ws (R.erase w.code) with
        | none => rw [hrec] at h; exact absurd h (by simp)
        | some pr =>
          obtain ⟨recs', rem'⟩ := pr
          rw [hrec] at h
          simp only [Option.some.injEq, Prod.mk.injEq] at h
          obtain ⟨h1, -⟩ := h
          subst h1
          rcases List.mem_cons.mp hrecmem with hr | hr
          · subst hr
            exact ⟨w, List.mem_cons_self _ _, rfl, hn, hmem⟩
          · obtain ⟨w0, hw0, he, hv, hR⟩ :=
              ih (R.erase w.code) recs' rem' hrec rec hr
            exact ⟨w0, List.mem_cons_of_mem _ hw0, he, hv,
              List.erase_subset _ _ hR⟩
    · obtain ⟨w0, hw0, he, hv, hR⟩ := ih R recs rem h rec hrecmem
      exact ⟨w0, List.mem_cons_of_mem _ hw0, he, hv, hR⟩

/-- An id appears among the Ozon price records exactly when it is both an
inventory code and a remote offer id. -/
theorem sellerCreatePrices_mem_iff (ws : List Watch) :
    ∀ (ids : List String) (x : String),
      x ∈ (create_prices ws ids).map PriceRecord.offer_id ↔
        x ∈ ws.map Watch.code ∧ x ∈ ids := by
  induction ws with
  | nil => intro ids x; simp [create_prices]
  | cons w ws ih =>
    intro ids x
    simp only [create_prices]
    split
    · rename_i hmem
      simp only [List.map_cons, List.mem_cons, ih]
      constructor
      · rintro (rfl | ⟨h1, h2⟩)
        · exact ⟨Or.inl rfl, hmem⟩
        · exact ⟨Or.inr h1, h2⟩
      · rintro ⟨rfl | h1, h2⟩
        · exact Or.inl rfl
        · exact Or.inr ⟨h1, h2⟩
    · rename_i hmem
      rw [ih]
      simp only [List.map_cons, List.mem_cons]
      constructor
      · rintro ⟨h1, h2⟩
        exact ⟨Or.inr h1, h2⟩
      · rintro ⟨rfl | h1, h2⟩
        · exact absurd h2 hmem
        · exact ⟨h1, h2⟩

/-- When no inventory code is in the id list, the Ozon price pass emits
nothing. -/
theorem sellerCreatePrices_nil (ws : List Watch) :
    ∀ ids : List String, (∀ w ∈ ws, w.code ∉ ids) →
      create_prices ws ids = [] := by
  induction ws with
  | nil => intro ids _; rfl
  | cons w ws ih =>
    intro ids h
    simp only [create_prices]
    rw [if_neg (h w (List.mem_cons_self w ws))]
    exact ih ids (fun w0 hw0 => h w0 (List.mem_cons_of_mem w hw0))

end Seller

namespace Market

/-- The Yandex matching loop is the Ozon matching loop with each emitted
record re-shaped to the Yandex sku dictionary. -/
theorem marketStocksLoop_eq_seller (wid d : String) (ws : List Watch) :
    ∀ R : List String,
      stocksLoop wid d ws R = (Seller.stocksLoop ws R).map
        (fun pr =>
          (pr.1.map (fun r => StockRecord.mk r.offer_id wid r.stock "FIT" d),
            pr.2)) := by
  induction ws with
  | nil => intro R; simp [stocksLoop, Seller.stocksLoop]
  | cons w ws ih =>
    intro R
    simp only [stocksLoop, Seller.stocksLoop]
    split
    · cases hn : normalize_count w.qty with
      | none => simp
      | some st =>
        rw [ih (R.erase w.code)]
        cases hrec : Seller.stocksLoop ws (R.erase w.code) with
        | none => simp
        | some pr =>
          obtain ⟨recs', rem'⟩ := pr
          simp
    · exact ih R

/-- market.create_stocks is seller.create_stocks with each record re-shaped
to the Yandex sku dictionary; the final state of the offer-id list is the
same. -/
theorem marketCreateStocks_eq_seller (ws : List Watch) (R : List String)
    (wid d : String) :
    create_stocks ws R wid d = (Seller.create_stocks ws R).map
      (fun pr =>
        (pr.1.map (fun r => StockRecord.mk r.offer_id wid r.stock "FIT" d),
          pr.2)) := by
  simp only [create_stocks, Seller.create_stocks, marketStocksLoop_eq_seller]
  cases Seller.stocksLoop ws R with
  | none => rfl
  | some pr =>
    obtain ⟨matched, rem⟩ := pr
    simp [Function.comp]

/-- An id appears among the Yandex price records exactly when it is both an
inventory code and a remote offer id, whenever the pass succeeds. -/
theorem marketCreatePrices_mem_iff (ws : List Watch) :
    ∀ (ids : List String) (ps : List PriceRecord),
      create_prices ws ids = some ps →
      ∀ x : String, x ∈ ps.map PriceRecord.id ↔
        x ∈ ws.map Watch.code ∧ x ∈ ids := by
  induction ws with
  | nil =>
    intro ids ps h x
    simp only [create_prices, Option.some.injEq] at h
    subst h
    simp
  | cons w ws ih =>
    intro ids ps h x
    simp only [create_prices] at h
    split at h
    · rename_i hmem
      cases hv : pyInt (price_conversion w.price) with
      | none => rw [hv] at h; exact absurd h (by simp)
      | some v =>
        rw [hv] at h
        cases hrec : create_prices ws ids with
        | none => rw [hrec] at h; exact absurd h (by simp)
        | some ps' =>
          rw [hrec] at h
          simp only [Option.some.injEq] at h
          subst h
          simp only [List.map_cons, List.mem_cons, ih ids ps' hrec x]
          constructor
          · rintro (rfl | ⟨h1, h2⟩)
            · exact ⟨Or.inl rfl, hmem⟩
            · exact ⟨Or.inr h1, h2⟩
          · rintro ⟨rfl | h1, h2⟩
            · exact Or.inl rfl
            · exact Or.inr ⟨h1, h2⟩
    · rename_i hmem
      rw [ih ids ps h x]
      simp only [List.map_cons, List.mem_cons]
      constructor
      · rintro ⟨h1, h2⟩
        exact ⟨Or.inr h1, h2⟩
      · rintro ⟨rfl | h1, h2⟩
        · exact absurd h2 hmem
        · exact ⟨h1, h2⟩

/-- Every price value a successful Yandex price pass emits comes from int()
applied to a converted price text of some watch. -/
theorem marketCreatePrices_origin (ws : List Watch) :
    ∀ (ids : List String) (ps : List PriceRecord),
      create_prices ws ids = some ps →
      ∀ p ∈ ps, ∃ w ∈ ws, pyInt (price_conversion w.price) = some p.value := by
  induction ws with
  | nil =>
    intro ids ps h p hp
    simp only [create_prices, Option.some.injEq] at h
    subst h
    exact absurd hp (List.not_mem_nil p)
  | cons w ws ih =>
    intro ids ps h p hp
    simp only [create_prices] at h
    split at h
    · cases hv : pyInt (price_conversion w.price) with
      | none => rw [hv] at h; exact absurd h (by simp)
      | some v =>
        rw [hv] at h
        cases hrec : create_prices ws ids with
        | none => rw [hrec] at h; exact absurd h (by simp)
        | some ps' =>
          rw [hrec] at h
          simp only [Option.some.injEq] at h
          subst h
          rcases List.mem_cons.mp hp with hp | hp
          · subst hp; exact ⟨w, List.mem_cons_self _ _, hv⟩
          · obtain ⟨w0, hw0, hv0⟩ := ih ids ps' hrec p hp
            exact ⟨w0, List.mem_cons_of_mem _ hw0, hv0⟩
    · obtain ⟨w0, hw0, hv0⟩ := ih ids ps h p hp
      exact ⟨w0, List.mem_cons_of_mem _ hw0, hv0⟩

end Market

/-- A decimal digit is not one of the whitespace characters. -/
theorem isDigit_not_isWhitespace {c : Char} (h : c.isDigit = true) :
    c.isWhitespace = false := by
  by_cases h1 : c = ' '
  · subst h1; exact absurd h (by decide)
  by_cases h2 : c = '\t'
  · subst h2; exact absurd h (by decide)
  by_cases h3 : c = '\r'
  · subst h3; exact absurd h (by decide)
  by_cases h4 : c = '\n'
  · subst h4; exact absurd h (by decide)
  simp [Char.isWhitespace, h1, h2, h3, h4]

/-- dropWhile does nothing on a list none of whose elements satisfy the
predicate. -/
theorem dropWhile_eq_self_of_not {α : Type _} (p : α → Bool) (l : List α)
    (h : ∀ c ∈ l, p c = false) : l.dropWhile p = l := by
  cases l with
  | nil => rfl
  | cons a as => simp [List.dropWhile_cons, h a (List.mem_cons_self a as)]

/-- Stripping whitespace from an all-digit character list does nothing. -/
theorem pyStrip_eq_self_of_digits {l : List Char}
    (h : ∀ c ∈ l, c.isDigit = true) : pyStrip l = l := by
  have hw : ∀ c ∈ l, c.isWhitespace = false :=
    fun c hc => isDigit_not_isWhitespace (h c hc)
  unfold pyStrip
  rw [dropWhile_eq_self_of_not _ l hw,
    dropWhile_eq_self_of_not _ l.reverse
      (fun c hc => hw c (List.mem_reverse.mp hc)),
    List.reverse_reverse]

/-- Python int() of an all-digit character list, when it succeeds, is
non-negative: no sign branch is taken. -/
theorem pyIntAux_nonneg_of_digits {l : List Char}
    (h : ∀ c ∈ l, c.isDigit = true) {v : Int}
    (hv : pyIntAux (pyStrip l) = some v) : 0 ≤ v := by
  rw [pyStrip_eq_self_of_digits h] at hv
  cases l with
  | nil => exact absurd hv (by simp [pyIntAux])
  | cons c cs =>
    have hc := h c (List.mem_cons_self c cs)
    have hcp : c ≠ '+' := fun hcon => by subst hcon; exact absurd hc (by decide)
    have hcm : c ≠ '-' := fun hcon => by subst hcon; exact absurd hc (by decide)
    simp only [pyIntAux, if_neg hcp, if_neg hcm] at hv
    cases hd : pyDigits (c :: cs) with
    | none => rw [hd] at hv; exact absurd hv (by simp)
    | some n =>
      rw [hd] at hv
      simp at hv
      omega

/-- The converted price text is all digits, so int() of it, when it
succeeds, is non-negative. -/
theorem pyInt_price_conversion_nonneg {s : String} {v : Int}
    (hv : pyInt (price_conversion s) = some v) : 0 ≤ v := by
  have hd : ∀ c ∈ (price_conversion s).toList, c.isDigit = true := by
    intro c hc
    have hc2 : c ∈ (((pySplitDot s.toList).headD []).filter Char.isDigit) := hc
    exact (List.mem_filter.mp hc2).2
  exact pyIntAux_nonneg_of_digits hd hv

/-- Python str.split never returns an empty list of parts. -/
theorem pySplitDot_ne_nil (l : List Char) : pySplitDot l ≠ [] := by
  cases l with
  | nil => simp [pySplitDot]
  | cons c cs =>
    simp only [pySplitDot]
    split
    · simp
    · split <;> simp

/-- The part before the first dot produced by split is the longest prefix
free of dots. -/
theorem pySplitDot_headD (l : List Char) :
    (pySplitDot l).headD [] = l.takeWhile (· != '.') := by
  induction l with
  | nil => rfl
  | cons c cs ih =>
    simp only [pySplitDot]
    by_cases hc : c = '.'
    · subst hc
      simp [List.takeWhile_cons]
    · rw [if_neg hc]
      cases h : pySplitDot cs with
      | nil => exact absurd h (pySplitDot_ne_nil cs)
      | cons p ps =>
        have ihp : p = cs.takeWhile (· != '.') := by
          rw [h] at ih
          simpa using ih
        simp [List.takeWhile_cons, hc, ihp]

/-- Fuel-indexed batching specification: for a positive chunk size the
generator succeeds, its chunks concatenate back to the input, no chunk
exceeds the size, and every chunk except possibly the last has exactly the
size. -/
theorem divide_spec {α : Type _} :
    ∀ (L : Nat) (S : List α), S.length ≤ L → ∀ n : Nat, 0 < n →
      ∃ cs, divide S n = some cs ∧ cs.flatten = S ∧
        (∀ c ∈ cs, c.length ≤ n) ∧ (∀ c ∈ cs.dropLast, c.length = n) := by
  intro L
  induction L with
  | zero =>
    intro S hS n hn
    have hnil : S = [] := List.eq_nil_of_length_eq_zero (Nat.le_zero.mp hS)
    subst hnil
    cases n with
    | zero => omega
    | succ m => exact ⟨[], by simp [divide], rfl, by simp, by simp⟩
  | succ L ih =>
    intro S hS n hn
    cases S with
    | nil =>
      cases n with
      | zero => omega
      | succ m => exact ⟨[], by simp [divide], rfl, by simp, by simp⟩
    | cons a as =>
      cases n with
      | zero => omega
      | succ m =>
        have hlen : ((a :: as).drop (m + 1)).length ≤ L := by
          simp only [List.length_drop, List.length_cons]
          simp only [List.length_cons] at hS
          omega
        obtain ⟨cs', h1, h2, h3, h4⟩ :=
          ih ((a :: as).drop (m + 1)) hlen (m + 1) (Nat.succ_pos m)
        refine ⟨(a :: as).take (m + 1) :: cs', ?_, ?_, ?_, ?_⟩
        · rw [divide, h1]
          rfl
        · simp only [List.flatten_cons, h2]
          exact List.take_append_drop (m + 1) (a :: as)
        · intro c hc
          rcases List.mem_cons.mp hc with hc | hc
          · subst hc
            simp only [List.length_take]
            omega
          · exact h3 c hc
        · intro c hc
          cases cs' with
          | nil => simp at hc
          | cons c0 cs0 =>
            have hgt : m + 1 < (a :: as).length := by
              by_contra hle
              have hdrop : (a :: as).drop (m + 1) = [] :=
                List.drop_eq_nil_of_le (by omega)
              rw [hdrop] at h1
              simp [divide] at h1
            rw [List.dropLast_cons₂] at hc
            rcases List.mem_cons.mp hc with hc | hc
            · subst hc
              simp only [List.length_take]
              omega
            · exact h4 c hc

/-- Running the Ozon pagination loop over pages on which the stop condition
keeps failing, followed by a page whose total matches the accumulated count,
consumes exactly those pages — whatever follows in the trace is never
requested — and accumulates every page's items in order. -/
theorem sellerOfferLoop_run (good : List Seller.Page) :
    ∀ (acc : List Seller.Product) (last : Seller.Page)
      (rest : List (Except String Seller.Page)),
      Seller.noStop acc.length good →
      last.total = acc.length + (good.flatMap Seller.Page.items).length
        + last.items.length →
      Seller.offerLoop ((good ++ [last]).map Except.ok ++ rest) acc =
        some (Except.ok (acc ++ good.flatMap Seller.Page.items
          ++ last.items)) := by
  induction good with
  | nil =>
    intro acc last rest _ htot
    simp only [List.flatMap_nil, List.append_nil] at htot ⊢
    simp only [List.nil_append, List.map_cons, List.map_nil, List.cons_append]
    simp only [Seller.offerLoop]
    rw [if_pos (by simp [htot])]
  | cons p good ih =>
    intro acc last rest hns htot
    obtain ⟨hne, hns'⟩ := hns
    simp only [List.cons_append, List.map_cons]
    simp only [Seller.offerLoop]
    rw [if_neg (by simp only [List.length_append]; exact hne)]
    have hrec := ih (acc ++ p.items) last rest
      (by simp only [List.length_append]; exact hns')
      (by
        simp only [List.length_append, List.flatMap_cons, List.length_append] at htot ⊢
        omega)
    simpa [List.flatMap_cons, List.append_assoc] using hrec

/-- A raised page request inside the Ozon pagination loop propagates: the
loop result is that error. -/
theorem sellerOfferLoop_err (good : List Seller.Page) :
    ∀ (acc : List Seller.Product) (e : String)
      (rest : List (Except String Seller.Page)),
      Seller.noStop acc.length good →
      Seller.offerLoop (good.map Except.ok ++ Except.error e :: rest) acc =
        some (Except.error e) := by
  induction good with
  | nil => intro acc e rest _; rfl
  | cons p good ih =>
    intro acc e rest hns
    obtain ⟨hne, hns'⟩ := hns
    simp only [List.map_cons, List.cons_append]
    simp only [Seller.offerLoop]
    rw [if_neg (by simp only [List.length_append]; exact hne)]
    exact ih (acc ++ p.items) e rest
      (by simp only [List.length_append]; exact hns')

/-- Running the Yandex pagination loop over pages whose continuation tokens
are all nonempty, followed by a page with an empty token, consumes exactly
those pages and accumulates every page's entries in order. -/
theorem marketOfferLoop_run (good : List Market.Page) :
    ∀ (acc : List Market.Entry) (last : Market.Page)
      (rest : List (Except String Market.Page)),
      Market.noStopTok good → last.nextPageToken = "" →
      Market.offerLoop ((good ++ [last]).map Except.ok ++ rest) acc =
        some (Except.ok (acc ++ good.flatMap Market.Page.offerMappingEntries
          ++ last.offerMappingEntries)) := by
  induction good with
  | nil =>
    intro acc last rest _ htok
    simp only [List.flatMap_nil, List.append_nil]
    simp only [List.nil_append, List.map_cons, List.map_nil, List.cons_append]
    simp only [Market.offerLoop]
    rw [if_pos htok]
  | cons p good ih =>
    intro acc last rest htoks htok
    have hne : p.nextPageToken ≠ "" := htoks p (List.mem_cons_self p good)
    have htoks' : Market.noStopTok good :=
      fun q hq => htoks q (List.mem_cons_of_mem p hq)
    simp only [List.cons_append, List.map_cons]
    simp only [Market.offerLoop]
    rw [if_neg hne]
    have hrec := ih (acc ++ p.offerMappingEntries) last rest htoks' htok
    simpa [List.flatMap_cons, List.append_assoc] using hrec

/-- A raised page request inside the Yandex pagination loop propagates: the
loop result is that error. -/
theorem marketOfferLoop_err (good : List Market.Page) :
    ∀ (acc : List Market.Entry) (e : String)
      (rest : List (Except String Market.Page)),
      Market.noStopTok good →
      Market.offerLoop (good.map Except.ok ++ Except.error e :: rest) acc =
        some (Except.error e) := by
  induction good with
  | nil => intro acc e rest _; rfl
  | cons p good ih =>
    intro acc e rest htoks
    have hne : p.nextPageToken ≠ "" := htoks p (List.mem_cons_self p good)
    simp only [List.map_cons, List.cons_append]
    simp only [Market.offerLoop]
    rw [if_neg hne]
    exact ih (acc ++ p.offerMappingEntries) e rest
      (fun q hq => htoks q (List.mem_cons_of_mem p hq))

/-- C1: stock-record completeness — for every inventory list and every
remote offer-id list with pairwise-distinct ids, the multiset of offer ids
in the output of create_stocks (Ozon and Yandex variants) equals the remote
list exactly: each remote id appears in exactly one record, via a match or
as a zero-stock remainder, with no duplicates and no omissions. -/
theorem thm_C1 (I : List Watch) (R : List String) (hR : R.Nodup) :
    (∀ (S : List Seller.StockRecord) (rem : List String),
      Seller.create_stocks I R = some (S, rem) →
      (S.map Seller.StockRecord.offer_id).Perm R) ∧
    (∀ (wid d : String) (S : List Market.StockRecord) (rem : List String),
      Market.create_stocks I R wid d = some (S, rem) →
      (S.map Market.StockRecord.sku).Perm R) := by
  have hsell : ∀ (S : List Seller.StockRecord) (rem : List String),
      Seller.create_stocks I R = some (S, rem) →
      (S.map Seller.StockRecord.offer_id).Perm R := by
    intro S rem h
    simp only [Seller.create_stocks] at h
    cases hrec : Seller.stocksLoop I R with
    | none => rw [hrec] at h; exact absurd h (by simp)
    | some pr =>
      obtain ⟨matched, rem'⟩ := pr
      rw [hrec] at h
      simp only [Option.some.injEq, Prod.mk.injEq] at h
      obtain ⟨h1, h2⟩ := h
      subst h1; subst h2
      have hperm := Seller.stocksLoop_perm I R matched rem' hrec
      simpa [List.map_map, Function.comp_def] using hperm
  refine ⟨hsell, ?_⟩
  intro wid d S rem h
  rw [Market.marketCreateStocks_eq_seller] at h
  obtain ⟨pr, hpr, heq⟩ := Option.map_eq_some'.mp h
  obtain ⟨S0, rem0⟩ := pr
  simp only [Prod.mk.injEq] at heq
  obtain ⟨hS, hrem⟩ := heq
  subst hS; subst hrem
  have := hsell S0 rem0 hpr
  simpa [List.map_map, Function.comp_def] using this

/-- Witness for C1: a concrete two-watch inventory against three distinct
remote ids, where the output ids are a permutation of the remote list. -/
theorem wit_C1 :
    (["A", "B", "C"] : List String).Nodup ∧
      (List.map Seller.StockRecord.offer_id
        [⟨"A", 100⟩, ⟨"B", 0⟩, ⟨"C", 0⟩]).Perm ["A", "B", "C"] :=
  ⟨by decide,
    (thm_C1 [⟨"A", ">10", "x"⟩, ⟨"B", "1", "y"⟩] ["A", "B", "C"] (by decide)).1
      [⟨"A", 100⟩, ⟨"B", 0⟩, ⟨"C", 0⟩] ["C"] (by decide)⟩

/-- C2: stock-record counts — the quantity sentinel ">10" yields 100, the
sentinel "1" yields 0, any other token is parsed as a base-10 integer and a
non-numeric token raises a parse error surfaced to the caller (the whole
call fails); every matched inventory item contributes a record carrying its
normalized count, and every remote id with no matching inventory item gets
count 0.  Formalized for pairwise-distinct inventory codes, matching the
specification's treatment of the inventory as a set, for both the Ozon and
the Yandex variant. -/
theorem thm_C2 (I : List Watch) (R : List String)
    (hI : (I.map Watch.code).Nodup) :
    (normalize_count ">10" = some 100 ∧ normalize_count "1" = some 0 ∧
      normalize_count "37" = some 37 ∧ normalize_count "12a" = none) ∧
    (∀ (S : List Seller.StockRecord) (rem : List String),
      Seller.create_stocks I R = some (S, rem) →
      (∀ w ∈ I, w.code ∈ R →
        ∃ v, normalize_count w.qty = some v ∧
          Seller.StockRecord.mk w.code v ∈ S) ∧
      (∀ r ∈ R, r ∉ I.map Watch.code → Seller.StockRecord.mk r 0 ∈ S)) ∧
    ((∃ w ∈ I, w.code ∈ R ∧ normalize_count w.qty = none) →
      Seller.create_stocks I R = none) ∧
    (∀ (wid d : String) (S : List Market.StockRecord) (rem : List String),
      Market.create_stocks I R wid d = some (S, rem) →
      (∀ w ∈ I, w.code ∈ R →
        ∃ v, normalize_count w.qty = some v ∧
          Market.StockRecord.mk w.code wid v "FIT" d ∈ S) ∧
      (∀ r ∈ R, r ∉ I.map Watch.code →
        Market.StockRecord.mk r wid 0 "FIT" d ∈ S)) := by
  have hmain : ∀ (S : List Seller.StockRecord) (rem : List String),
      Seller.create_stocks I R = some (S, rem) →
      (∀ w ∈ I, w.code ∈ R →
        ∃ v, normalize_count w.qty = some v ∧
          Seller.StockRecord.mk w.code v ∈ S) ∧
      (∀ r ∈ R, r ∉ I.map Watch.code → Seller.StockRecord.mk r 0 ∈ S) := by
    intro S rem h
    simp only [Seller.create_stocks] at h
    cases hrec : Seller.stocksLoop I R with
    | none => rw [hrec] at h; exact absurd h (by simp)
    | some pr =>
      obtain ⟨matched, rem'⟩ := pr
      rw [hrec] at h
      simp only [Option.some.injEq, Prod.mk.injEq] at h
      obtain ⟨h1, h2⟩ := h
      subst h1; subst h2
      constructor
      · intro w hw hwR
        obtain ⟨v, hv, hvmem⟩ :=
          Seller.stocksLoop_matched I R matched rem' hI hrec w hw hwR
        exact ⟨v, hv, List.mem_append_left _ hvmem⟩
      · intro r hr hrI
        have hmem := Seller.stocksLoop_unmatched I R matched rem' hrec r hr hrI
        exact List.mem_append_right _
          (List.mem_map_of_mem (fun oid => (⟨oid, 0⟩ : Seller.StockRecord)) hmem)
  refine ⟨by decide, hmain, ?_, ?_⟩
  · intro hex
    simp only [Seller.create_stocks, Seller.stocksLoop_error I R hI hex]
  · intro wid d S rem h
    rw [Market.marketCreateStocks_eq_seller] at h
    obtain ⟨pr, hpr, heq⟩ := Option.map_eq_some'.mp h
    obtain ⟨S0, rem0⟩ := pr
    simp only [Prod.mk.injEq] at heq
    obtain ⟨hS, hrem⟩ := heq
    subst hS; subst hrem
    obtain ⟨hm, hz⟩ := hmain S0 rem0 hpr
    constructor
    · intro w hw hwR
      obtain ⟨v, hv, hvmem⟩ := hm w hw hwR
      exact ⟨v, hv, List.mem_map_of_mem _ hvmem⟩
    · intro r hr hrI
      exact List.mem_map_of_mem _ (hz r hr hrI)

/-- Witness for C2: a single watch with an unparsable quantity token makes
the whole call fail rather than default the count. -/
theorem wit_C2 :
    (([⟨"A", "abc", "p"⟩] : List Watch).map Watch.code).Nodup ∧
      Seller.create_stocks [⟨"A", "abc", "p"⟩] ["A"] = none :=
  ⟨by decide,
    (thm_C2 [⟨"A", "abc", "p"⟩] ["A"] (by decide)).2.2.1
      ⟨⟨"A", "abc", "p"⟩, by decide, by decide, by decide⟩⟩

/-- C3: price-record domain — in both variants, an offer id appears among
the price records exactly when it is both a remote offer id and a local
inventory code (for the Yandex variant, whenever the call succeeds). -/
theorem thm_C3 (I : List Watch) (R : List String) :
    (∀ x : String,
      x ∈ (Seller.create_prices I R).map Seller.PriceRecord.offer_id ↔
        x ∈ R ∧ x ∈ I.map Watch.code) ∧
    (∀ ps : List Market.PriceRecord, Market.create_prices I R = some ps →
      ∀ x : String, x ∈ ps.map Market.PriceRecord.id ↔
        x ∈ R ∧ x ∈ I.map Watch.code) := by
  constructor
  · intro x
    rw [Seller.sellerCreatePrices_mem_iff, and_comm]
  · intro ps h x
    rw [Market.marketCreatePrices_mem_iff I R ps h x, and_comm]

/-- Witness for C3: a concrete Yandex price pass whose emitted id set is the
intersection of the remote ids and the inventory codes. -/
theorem wit_C3 :
    Market.create_prices [⟨"A", "1", "7 руб"⟩] ["A", "B"] =
        some [⟨"A", 7, "RUR"⟩] ∧
      ("A" ∈ (([⟨"A", 7, "RUR"⟩] : List Market.PriceRecord).map
          Market.PriceRecord.id) ↔
        "A" ∈ (["A", "B"] : List String) ∧
          "A" ∈ ([⟨"A", "1", "7 руб"⟩] : List Watch).map Watch.code) :=
  ⟨by decide,
    (thm_C3 [⟨"A", "1", "7 руб"⟩] ["A", "B"]).2 [⟨"A", 7, "RUR"⟩] (by decide) "A"⟩

/-- Counterexample for C4: with inventory holding the single code "A" and
the caller's offer-id list ["A"], create_stocks matches and removes "A", so
after the call the caller's list is [] and not its original contents. -/
theorem cex_C4 :
    Seller.create_stocks [⟨"A", "5", "p"⟩] ["A"] = some ([⟨"A", 5⟩], []) ∧
      ([] : List String) ≠ ["A"] :=
  ⟨by decide, by decide⟩

/-- C4 as amended: create_stocks removes matched codes from the caller's own
offer-id list, not from a working copy; after a successful call on a
duplicate-free list the caller's list holds exactly the remote ids with no
matching inventory code, in their original order. -/
theorem thm_C4 (I : List Watch) (R : List String) (hR : R.Nodup) :
    (∀ (S : List Seller.StockRecord) (rem : List String),
      Seller.create_stocks I R = some (S, rem) →
      rem = R.filter (fun r => decide (r ∉ I.map Watch.code))) ∧
    (∀ (wid d : String) (S : List Market.StockRecord) (rem : List String),
      Market.create_stocks I R wid d = some (S, rem) →
      rem = R.filter (fun r => decide (r ∉ I.map Watch.code))) := by
  have hsell : ∀ (S : List Seller.StockRecord) (rem : List String),
      Seller.create_stocks I R = some (S, rem) →
      rem = R.filter (fun r => decide (r ∉ I.map Watch.code)) := by
    intro S rem h
    simp only [Seller.create_stocks] at h
    cases hrec : Seller.stocksLoop I R with
    | none => rw [hrec] at h; exact absurd h (by simp)
    | some pr =>
      obtain ⟨matched, rem'⟩ := pr
      rw [hrec] at h
      simp only [Option.some.injEq, Prod.mk.injEq] at h
      obtain ⟨-, h2⟩ := h
      subst h2
      exact Seller.stocksLoop_rem_eq_filter I R matched rem' hR hrec
  refine ⟨hsell, ?_⟩
  intro wid d S rem h
  rw [Market.marketCreateStocks_eq_seller] at h
  obtain ⟨pr, hpr, heq⟩ := Option.map_eq_some'.mp h
  obtain ⟨S0, rem0⟩ := pr
  simp only [Prod.mk.injEq] at heq
  obtain ⟨-, hrem⟩ := heq
  subst hrem
  exact hsell S0 rem0 hpr

/-- Witness for C4 as amended: the remote id "B" matches no inventory code
and is exactly what survives in the caller's list. -/
theorem wit_C4 :
    (["A", "B"] : List String).Nodup ∧
      ["B"] = (["A", "B"] : List String).filter
        (fun r => decide (r ∉ ([⟨"A", "5", "p"⟩] : List Watch).map Watch.code)) :=
  ⟨by decide,
    (thm_C4 [⟨"A", "5", "p"⟩] ["A", "B"] (by decide)).1
      [⟨"A", 5⟩, ⟨"B", 0⟩] ["B"] (by decide)⟩

/-- C5: because create_stocks consumes the caller's offer-id list, the
subsequent create_prices call in seller.main on the very same list (the
ids left over after stock reconciliation) returns the empty list whenever
the remote ids are pairwise distinct, so the price-update loop submits no
records. -/
theorem thm_C5 (I : List Watch) (R : List String) (hR : R.Nodup)
    (S : List Seller.StockRecord) (rem : List String)
    (h : Seller.create_stocks I R = some (S, rem)) :
    Seller.create_prices I rem = [] := by
  simp only [Seller.create_stocks] at h
  cases hrec : Seller.stocksLoop I R with
  | none => rw [hrec] at h; exact absurd h (by simp)
  | some pr =>
    obtain ⟨matched, rem'⟩ := pr
    rw [hrec] at h
    simp only [Option.some.injEq, Prod.mk.injEq] at h
    obtain ⟨-, h2⟩ := h
    subst h2
    exact Seller.sellerCreatePrices_nil I rem'
      (Seller.stocksLoop_code_not_mem_rem I R matched rem' hR hrec)

/-- Witness for C5: after the concrete call of wit_C1's shape consumes the
list down to [], the price pass over the leftover list is empty. -/
theorem wit_C5 :
    (["A"] : List String).Nodup ∧
      Seller.create_prices [⟨"A", "5", "p"⟩] [] = [] :=
  ⟨by decide,
    thm_C5 [⟨"A", "5", "p"⟩] ["A"] (by decide) [⟨"A", 5⟩] [] (by decide)⟩

/-- C6: pagination termination and completeness — against a well-behaved
backend trace (pages on which the stop condition keeps failing, then a
terminal page), both paginators terminate exactly at the terminal page,
ignore whatever follows it, and return the ids of every fetched page
concatenated in order; Ozon stops when the accumulated count equals the
reported total, Yandex Market stops at an empty continuation token; and a
page-fetch failure before termination propagates, so no partial catalog is
returned. -/
theorem thm_C6 :
    (∀ (good : List Seller.Page) (last : Seller.Page)
        (rest : List (Except String Seller.Page)),
      Seller.noStop 0 good →
      last.total = (good.flatMap Seller.Page.items).length + last.items.length →
      Seller.get_offer_ids ((good ++ [last]).map Except.ok ++ rest) =
        some (Except.ok (((good ++ [last]).flatMap Seller.Page.items).map
          Seller.Product.offer_id))) ∧
    (∀ (good : List Seller.Page) (e : String)
        (rest : List (Except String Seller.Page)),
      Seller.noStop 0 good →
      Seller.get_offer_ids (good.map Except.ok ++ Except.error e :: rest) =
        some (Except.error e)) ∧
    (∀ (good : List Market.Page) (last : Market.Page)
        (rest : List (Except String Market.Page)),
      Market.noStopTok good → last.nextPageToken = "" →
      Market.get_offer_ids ((good ++ [last]).map Except.ok ++ rest) =
        some (Except.ok
          (((good ++ [last]).flatMap Market.Page.offerMappingEntries).map
            Market.Entry.shopSku))) ∧
    (∀ (good : List Market.Page) (e : String)
        (rest : List (Except String Market.Page)),
      Market.noStopTok good →
      Market.get_offer_ids (good.map Except.ok ++ Except.error e :: rest) =
        some (Except.error e)) := by
  refine ⟨?_, ?_, ?_, ?_⟩
  · intro good last rest hns htot
    have hrun := sellerOfferLoop_run good [] last rest hns (by simpa using htot)
    simp only [Seller.get_offer_ids, hrun]
    simp [List.flatMap_append]
  · intro good e rest hns
    have hrun := sellerOfferLoop_err good [] e rest hns
    simp only [Seller.get_offer_ids, hrun]
  · intro good last rest htoks htok
    have hrun := marketOfferLoop_run good [] last rest htoks htok
    simp only [Market.get_offer_ids, hrun]
    simp [List.flatMap_append]
  · intro good e rest htoks
    have hrun := marketOfferLoop_err good [] e rest htoks
    simp only [Market.get_offer_ids, hrun]

/-- Witness for C6: a concrete two-page Ozon trace whose first page reports
total 3 with 1 item accumulated (so the loop continues) and whose second
page completes the total; the result is all three ids in order. -/
theorem wit_C6 :
    Seller.noStop 0 [⟨[⟨1, "A"⟩], 3, "t"⟩] ∧
      Seller.get_offer_ids
          [Except.ok ⟨[⟨1, "A"⟩], 3, "t"⟩,
            Except.ok ⟨[⟨2, "B"⟩, ⟨3, "C"⟩], 3, ""⟩] =
        some (Except.ok ["A", "B", "C"]) := by
  have hns : Seller.noStop 0 [(⟨[⟨1, "A"⟩], 3, "t"⟩ : Seller.Page)] := by
    refine ⟨by decide, trivial⟩
  refine ⟨hns, ?_⟩
  have h := thm_C6.1 [⟨[⟨1, "A"⟩], 3, "t"⟩] ⟨[⟨2, "B"⟩, ⟨3, "C"⟩], 3, ""⟩ []
    hns (by decide)
  simpa using h

/-- C7: batcher round-trip and sizing — for every list and every positive
chunk size the generator succeeds, concatenating its chunks in order yields
the input exactly (no reordering, duplication or loss), no chunk exceeds the
size, and every chunk except possibly the last has exactly the size. -/
theorem thm_C7 {α : Type _} (S : List α) (n : Nat) (hn : 0 < n) :
    ∃ cs, divide S n = some cs ∧ cs.flatten = S ∧
      (∀ c ∈ cs, c.length ≤ n) ∧ (∀ c ∈ cs.dropLast, c.length = n) :=
  divide_spec S.length S le_rfl n hn

/-- Witness for C7: the doctest example list of ten elements in chunks of
two. -/
theorem wit_C7 :
    0 < 2 ∧ ∃ cs, divide [0, 1, 2, 3, 4] 2 = some cs ∧
      cs.flatten = [0, 1, 2, 3, 4] ∧
      (∀ c ∈ cs, c.length ≤ 2) ∧ (∀ c ∈ cs.dropLast, c.length = 2) :=
  ⟨by decide, thm_C7 [0, 1, 2, 3, 4] 2 (by decide)⟩

/-- C8: price normalization — for every string, price_conversion equals the
specified algorithm (substring before the first decimal point with every
non-digit deleted), and on the concrete examples: the sample text with digit
5, an apostrophe, 990.00 and a currency suffix maps to "5990"; "100 руб"
maps to "100"; "0.50 руб" maps to "0"; and a text whose integer part holds
no digit maps to the empty string, passed through unvalidated. -/
theorem thm_C8 :
    (∀ s : String, price_conversion s = price_conversion_spec s) ∧
    price_conversion (String.mk
      ['5', Char.ofNat 39, '9', '9', '0', '.', '0', '0', ' ', 'р', 'у', 'б'])
      = "5990" ∧
    price_conversion "100 руб" = "100" ∧
    price_conversion "0.50 руб" = "0" ∧
    price_conversion "руб" = "" := by
  refine ⟨?_, by decide, by decide, by decide, by decide⟩
  intro s
  unfold price_conversion price_conversion_spec
  rw [pySplitDot_headD]

/-- Witness for C8: the source-and-spec agreement applied at one concrete
price text. -/
theorem wit_C8 : price_conversion "12.50" = price_conversion_spec "12.50" :=
  thm_C8.1 "12.50"

/-- Counterexample for C9: the quantity token "-5" is neither sentinel, so
int() parses it to the negative count -5 and create_stocks emits a record
with a negative stock count. -/
theorem cex_C9 :
    Seller.create_stocks [⟨"A", "-5", "p"⟩] ["A"] =
        some ([⟨"A", -5⟩], []) ∧ (-5 : Int) < 0 :=
  ⟨by decide, by decide⟩

/-- C9 as amended: every record for a remote id matching no inventory code
(the zero-stock remainder) has count 0 and every price value emitted by the
Yandex create_prices is non-negative, both unconditionally; matched stock
counts are non-negative provided every matched quantity token — of a watch
whose code is among the remote ids — normalizes to a non-negative value
(the sentinels and non-negative numerals do; the code also accepts negative
numerals, which yield negative counts). -/
theorem thm_C9 (I : List Watch) (R : List String) :
    ((∀ w ∈ I, w.code ∈ R →
        ∀ v : Int, normalize_count w.qty = some v → 0 ≤ v) →
      (∀ (S : List Seller.StockRecord) (rem : List String),
        Seller.create_stocks I R = some (S, rem) → ∀ r ∈ S, 0 ≤ r.stock) ∧
      (∀ (wid d : String) (S : List Market.StockRecord) (rem : List String),
        Market.create_stocks I R wid d = some (S, rem) →
          ∀ r ∈ S, 0 ≤ r.count)) ∧
    (∀ (S : List Seller.StockRecord) (rem : List String),
      Seller.create_stocks I R = some (S, rem) →
      ∀ r ∈ S, r.offer_id ∉ I.map Watch.code → r.stock = 0) ∧
    (∀ (wid d : String) (S : List Market.StockRecord) (rem : List String),
      Market.create_stocks I R wid d = some (S, rem) →
      ∀ r ∈ S, r.sku ∉ I.map Watch.code → r.count = 0) ∧
    (∀ ps : List Market.PriceRecord, Market.create_prices I R = some ps →
      ∀ p ∈ ps, 0 ≤ p.value) := by
  have hzero : ∀ (S : List Seller.StockRecord) (rem : List String),
      Seller.create_stocks I R = some (S, rem) →
      ∀ r ∈ S, r.offer_id ∉ I.map Watch.code → r.stock = 0 := by
    intro S rem h r hr hrI
    simp only [Seller.create_stocks] at h
    cases hrec : Seller.stocksLoop I R with
    | none => rw [hrec] at h; exact absurd h (by simp)
    | some pr =>
      obtain ⟨matched, rem'⟩ := pr
      rw [hrec] at h
      simp only [Option.some.injEq, Prod.mk.injEq] at h
      obtain ⟨h1, -⟩ := h
      subst h1
      rcases List.mem_append.mp hr with hr | hr
      · obtain ⟨w, hw, he, -, -⟩ :=
          Seller.stocksLoop_origin I R matched rem' hrec r hr
        exact absurd (he ▸ List.mem_map_of_mem Watch.code hw) hrI
      · obtain ⟨oid, -, heq⟩ := List.mem_map.mp hr
        rw [← heq]
  have hsell : (∀ w ∈ I, w.code ∈ R →
        ∀ v : Int, normalize_count w.qty = some v → 0 ≤ v) →
      ∀ (S : List Seller.StockRecord) (rem : List String),
      Seller.create_stocks I R = some (S, rem) → ∀ r ∈ S, 0 ≤ r.stock := by
    intro hq S rem h r hr
    simp only [Seller.create_stocks] at h
    cases hrec : Seller.stocksLoop I R with
    | none => rw [hrec] at h; exact absurd h (by simp)
    | some pr =>
      obtain ⟨matched, rem'⟩ := pr
      rw [hrec] at h
      simp only [Option.some.injEq, Prod.mk.injEq] at h
      obtain ⟨h1, -⟩ := h
      subst h1
      rcases List.mem_append.mp hr with hr | hr
      · obtain ⟨w, hw, he, hv, hR⟩ :=
          Seller.stocksLoop_origin I R matched rem' hrec r hr
        exact hq w hw (he ▸ hR) r.stock hv
      · obtain ⟨oid, -, heq⟩ := List.mem_map.mp hr
        rw [← heq]
  refine ⟨fun hq => ⟨hsell hq, ?_⟩, hzero, ?_, ?_⟩
  · intro wid d S rem h r hr
    rw [Market.marketCreateStocks_eq_seller] at h
    obtain ⟨pr, hpr, heq⟩ := Option.map_eq_some'.mp h
    obtain ⟨S0, rem0⟩ := pr
    simp only [Prod.mk.injEq] at heq
    obtain ⟨hS, -⟩ := heq
    subst hS
    obtain ⟨r0, hr0, heq0⟩ := List.mem_map.mp hr
    rw [← heq0]
    exact hsell hq S0 rem0 hpr r0 hr0
  · intro wid d S rem h r hr hrI
    rw [Market.marketCreateStocks_eq_seller] at h
    obtain ⟨pr, hpr, heq⟩ := Option.map_eq_some'.mp h
    obtain ⟨S0, rem0⟩ := pr
    simp only [Prod.mk.injEq] at heq
    obtain ⟨hS, -⟩ := heq
    subst hS
    obtain ⟨r0, hr0, heq0⟩ := List.mem_map.mp hr
    rw [← heq0] at hrI ⊢
    exact hzero S0 rem0 hpr r0 hr0 hrI
  · intro ps h p hp
    obtain ⟨w, -, hv⟩ := Market.marketCreatePrices_origin I R ps h p hp
    exact pyInt_price_conversion_nonneg hv

/-- Witness for C9 as amended: a sentinel-token inventory yields the
non-negative count 100, with the non-negativity proviso discharged for the
matched token. -/
theorem wit_C9 :
    (∀ w ∈ ([⟨"A", ">10", "p"⟩] : List Watch), w.code ∈ (["A"] : List String) →
      ∀ v : Int, normalize_count w.qty = some v → 0 ≤ v) ∧
      (∀ r ∈ ([⟨"A", 100⟩] : List Seller.StockRecord), 0 ≤ r.stock) := by
  have hq : ∀ w ∈ ([⟨"A", ">10", "p"⟩] : List Watch),
      w.code ∈ (["A"] : List String) →
      ∀ v : Int, normalize_count w.qty = some v → 0 ≤ v := by
    intro w hw _ v hv
    obtain rfl := List.mem_singleton.mp hw
    have h100 : normalize_count ">10" = some 100 := by decide
    rw [h100] at hv
    simp only [Option.some.injEq] at hv
    omega
  exact ⟨hq,
    ((thm_C9 [⟨"A", ">10", "p"⟩] ["A"]).1 hq).1 [⟨"A", 100⟩] [] (by decide)⟩

/-- Counterexample for C10: an error raised in the FBS pipeline of
market.main is caught and reported, but control never reaches the DBS
pipeline — the orchestrator does not move on to the next account. -/
theorem cex_C10 :
    (Market.mainRun (Except.error "PaginationError") (Except.ok ())).dbsExecuted
        = false ∧
      (Market.mainRun (Except.error "PaginationError") (Except.ok ())).reported
        = some "PaginationError" :=
  ⟨rfl, rfl⟩

/-- C10 as amended: both campaign pipelines of market.main share one
try/except, so a failure in the FBS pipeline is reported at the main
boundary (the process does not crash) but the DBS pipeline is skipped
rather than run next. -/
theorem thm_C10 (e : String) (dbs : Except String Unit) :
    Market.mainRun (Except.error e) dbs =
      ⟨true, false, some e⟩ := rfl

/-- Witness for C10 as amended at a concrete error. -/
theorem wit_C10 :
    Market.mainRun (Except.error "boom") (Except.ok ()) =
      ⟨true, false, some "boom"⟩ :=
  thm_C10 "boom" (Except.ok ())
